import Mathlib

/-!
Shallow embedding of the wordmorph weighted-graph engine
(`src/graph.c`, `src/dijkstra.c`, and the query driver `file.c`).

The graph is an array of vertices, each holding an item and an adjacency
list of weighted edges (`struct _Vertex`, `struct _Edge`, `struct _Graph`).
The shortest-path engine is Dijkstra's algorithm over a priority queue
keyed by a shared tentative-distance array (`shortest_path`, `cmp`).

The heap implementation (`heap.c`), the word helpers (`word.c`) and the
`MAX_WT` sentinel constant are not part of the sources; where they are
needed they are modelled from the specification, and each such definition
says so in its doc comment.
-/

namespace Wordmorph

/-- Modelled from the spec: the `MAX_WT` "infinite" sentinel (its defining
header `const.h` is not in the sources).  A tentative distance is either a
finite natural number or the infinite sentinel `none`; per the spec,
"comparisons against infinite simply always lose".  `olt a b` is the
strict comparison `a < b` used by `cmp` in `dijkstra.c`. -/
def olt : Option Nat → Option Nat → Bool
  | some a, some b => a < b
  | some _, none => true
  | none, _ => false

/-- Candidate distance `wt[v] + edge->weight` (`POT_DIST` in `dijkstra.c`), with the infinite
sentinel absorbing addition. -/
def oadd : Option Nat → Nat → Option Nat
  | some a, w => some (a + w)
  | none, _ => none

/-- Non-strict companion of `olt`: `ole a b` means `a ≤ b`. -/
def ole (a b : Option Nat) : Bool := ! olt b a

theorem olt_irrefl (a : Option Nat) : olt a a = false := by
  cases a <;> simp [olt]

theorem olt_asymm {a b : Option Nat} (h : olt a b = true) : olt b a = false := by
  cases a <;> cases b <;> simp_all [olt] <;> omega

theorem olt_negtrans {a b c : Option Nat} (hab : olt a b = false)
    (hbc : olt b c = false) : olt a c = false := by
  cases a <;> cases b <;> cases c <;> simp_all [olt] <;> omega

theorem olt_oadd_self (a : Option Nat) (w : Nat) : olt (oadd a w) a = false := by
  cases a <;> simp [olt, oadd]

theorem olt_oadd_mono {a b : Option Nat} {w : Nat} (h : olt a b = false) :
    olt (oadd a w) b = false := by
  cases a <;> cases b <;> simp_all [olt, oadd] <;> omega

/-! ### List access helpers

The C code indexes raw arrays; the embedding uses `List.getD` and
`List.set` and the following small lemmas about them. -/

theorem getD_set_self {α : Type} (l : List α) (i : Nat) (x d : α)
    (h : i < l.length) : (l.set i x).getD i d = x := by
  induction l generalizing i with
  | nil => simp at h
  | cons a l ih =>
    cases i with
    | zero => simp [List.set, List.getD]
    | succ i =>
      simp only [List.set, List.length_cons] at *
      simpa [List.getD] using ih i (by omega)

theorem getD_set_ne {α : Type} (l : List α) (i j : Nat) (x d : α)
    (h : i ≠ j) : (l.set i x).getD j d = l.getD j d := by
  induction l generalizing i j with
  | nil => simp [List.set]
  | cons a l ih =>
    cases i with
    | zero =>
      cases j with
      | zero => omega
      | succ j => simp [List.set, List.getD]
    | succ i =>
      cases j with
      | zero => simp [List.set, List.getD]
      | succ j => simpa [List.set, List.getD] using ih i j (by omega)

theorem set_of_length_le {α : Type} (l : List α) (i : Nat) (x : α)
    (h : l.length ≤ i) : l.set i x = l := by
  induction l generalizing i with
  | nil => simp
  | cons a l ih =>
    cases i with
    | zero => simp at h
    | succ i => simp only [List.length_cons] at h; simp [List.set, ih i (by omega)]

theorem getD_replicate {α : Type} (n i : Nat) (a d : α) :
    (List.replicate n a).getD i d = if i < n then a else d := by
  induction n generalizing i with
  | zero => simp [List.getD]
  | succ n ih =>
    cases i with
    | zero => simp [List.replicate, List.getD_cons_zero]
    | succ i =>
      rw [List.replicate, List.getD_cons_succ, ih]
      by_cases hc : i < n
      · rw [if_pos hc, if_pos (by omega)]
      · rw [if_neg hc, if_neg (by omega)]

/-! ### The graph model (`src/graph.c`)

`struct _Edge` holds the target vertex index and the link weight;
`struct _Vertex` holds an item and a singly linked adjacency list;
`struct _Graph` holds the vertex array, the next free slot, the declared
capacity `size` and the `max_weight` cutoff.  The embedding keeps only the
inserted vertices in `vertices` (so `free = vertices.length`) and records
the capacity separately. -/

structure Edge where
  weight : Nat
  index : Nat
deriving DecidableEq

structure Vertex (α : Type) where
  item : α
  adj : List Edge
deriving DecidableEq

structure Graph (α : Type) where
  vertices : List (Vertex α)
  size : Nat
  max_weight : Nat
deriving DecidableEq

/-- Function `g_get_free`: the number of vertices inserted so far. -/
def g_get_free {α : Type} (g : Graph α) : Nat := g.vertices.length

/-- Function `g_init(size, max_weight)`: an empty graph with the given capacity and
weight cutoff. -/
def g_init (α : Type) (size max_weight : Nat) : Graph α :=
  { vertices := [], size := size, max_weight := max_weight }

/-- Function `g_insert`: appends a vertex holding the item at index `free`;
when the graph is full the C code prints an error and exits, modelled by
`none`. -/
def g_insert {α : Type} (g : Graph α) (it : α) : Option (Graph α) :=
  if g_get_free g = g.size then none
  else some { g with vertices := g.vertices ++ [{ item := it, adj := [] }] }

/-- The adjacency list of vertex `k` (`v_get_adj(v_get(g, k))`); empty for
an index with no inserted vertex. -/
def adjAt {α : Type} (g : Graph α) (k : Nat) : List Edge :=
  match g.vertices[k]? with
  | some v => v.adj
  | none => []

/-- The item of vertex `k` (`v_get_item(v_get(g, k))`), as an option. -/
def itemAt? {α : Type} (g : Graph α) (k : Nat) : Option α :=
  (g.vertices[k]?).map Vertex.item

/-- The item of vertex `k` with a default, for contexts where the C code
reads `g->vertices[k]->item` unconditionally. -/
def itemAtD {α : Type} [Inhabited α] (g : Graph α) (k : Nat) : α :=
  ((g.vertices[k]?).map Vertex.item).getD default

/-- In-place update of one vertex of the array. -/
def modifyAt {α : Type} (i : Nat) (f : Vertex α → Vertex α) :
    List (Vertex α) → List (Vertex α)
  | [] => []
  | x :: xs =>
    match i with
    | 0 => f x :: xs
    | i + 1 => x :: modifyAt i f xs

/-- Head insertion of one directed edge entry into a vertex's adjacency
list (`l_insert` in the missing `list.c` is head insertion, per the
spec's "head-insertion" description of the adjacency lists). -/
def linkTo {α : Type} (w idx : Nat) (vx : Vertex α) : Vertex α :=
  { vx with adj := { weight := w, index := idx } :: vx.adj }

/-- Function `e_add(g, i1, i2, weight)`: creates the two directed entries of one
undirected edge, one in each endpoint's adjacency list. -/
def e_add {α : Type} (g : Graph α) (i1 i2 w : Nat) : Graph α :=
  { g with vertices := modifyAt i2 (linkTo w i1) (modifyAt i1 (linkTo w i2) g.vertices) }

/-- The body of the inner loop of `g_update_links`: computes
`calc_weight(vertices[i]->item, vertices[j]->item, max_weight)` and adds
the edge when the result is at most `max_weight`. -/
def addPair {α : Type} [Inhabited α] (calc_weight : α → α → Nat → Nat)
    (g : Graph α) (p : Nat × Nat) : Graph α :=
  let weight := calc_weight (itemAtD g p.1) (itemAtD g p.2) g.max_weight
  if weight ≤ g.max_weight then e_add g p.1 p.2 weight else g

/-- Function `g_update_links(g, calc_weight)`: for every `i < free` and `j < i`,
evaluates the injected weight function on the two items and inserts an
edge of that weight when it does not exceed `max_weight`. -/
def g_update_links {α : Type} [Inhabited α]
    (g : Graph α) (calc_weight : α → α → Nat → Nat) : Graph α :=
  (List.range (g_get_free g)).foldl (fun gacc i =>
    (List.range i).foldl (fun gacc2 j => addPair calc_weight gacc2 (i, j)) gacc) g

/-- The sequence of `(i, j)` index pairs visited by the two nested loops
of `g_update_links`, in visit order. -/
def pairsUpTo : Nat → List (Nat × Nat)
  | 0 => []
  | n + 1 => pairsUpTo n ++ (List.range n).map (fun j => (n, j))

/-- The fold of the inner-loop body over an explicit pair list. -/
def buildPairs {α : Type} [Inhabited α] (calc_weight : α → α → Nat → Nat)
    (g : Graph α) (P : List (Nat × Nat)) : Graph α :=
  P.foldl (addPair calc_weight) g

theorem pairsUpTo_mem {n : Nat} {p : Nat × Nat} (h : p ∈ pairsUpTo n) :
    p.2 < p.1 ∧ p.1 < n := by
  induction n with
  | zero => simp [pairsUpTo] at h
  | succ n ih =>
    simp only [pairsUpTo, List.mem_append, List.mem_map, List.mem_range] at h
    rcases h with h | ⟨j, hj, rfl⟩
    · have := ih h; omega
    · simp; omega

theorem pairsUpTo_mem_of {n i j : Nat} (hj : j < i) (hi : i < n) :
    (i, j) ∈ pairsUpTo n := by
  induction n with
  | zero => omega
  | succ n ih =>
    simp only [pairsUpTo, List.mem_append, List.mem_map, List.mem_range]
    rcases Nat.lt_succ_iff_lt_or_eq.mp hi with h | rfl
    · exact Or.inl (ih h)
    · exact Or.inr ⟨j, hj, rfl⟩

theorem pairsUpTo_nodup (n : Nat) : (pairsUpTo n).Nodup := by
  induction n with
  | zero => simp [pairsUpTo]
  | succ n ih =>
    refine (List.nodup_append).mpr ⟨ih, ?_, ?_⟩
    · exact (List.nodup_range n).map (fun a b h => by simpa using congrArg Prod.snd h)
    · intro p hp hq
      have h1 := pairsUpTo_mem hp
      simp only [List.mem_map, List.mem_range] at hq
      obtain ⟨j, hj, rfl⟩ := hq
      exact absurd h1.2 (lt_irrefl n)

/-- The loop of `g_update_links` is the fold of its body over the pair sequence. -/
theorem g_update_links_eq_buildPairs {α : Type} [Inhabited α]
    (g : Graph α) (calc_weight : α → α → Nat → Nat) :
    g_update_links g calc_weight = buildPairs calc_weight g (pairsUpTo (g_get_free g)) := by
  unfold g_update_links buildPairs
  generalize g_get_free g = n
  induction n generalizing g with
  | zero => simp [pairsUpTo]
  | succ n ih =>
    rw [List.range_succ, List.foldl_append, pairsUpTo, List.foldl_append, ih]
    simp [List.foldl_map]

theorem modifyAt_length {α : Type} (i : Nat) (f : Vertex α → Vertex α)
    (l : List (Vertex α)) : (modifyAt i f l).length = l.length := by
  induction l generalizing i with
  | nil => simp [modifyAt]
  | cons x xs ih =>
    cases i with
    | zero => simp [modifyAt]
    | succ i => simp [modifyAt, ih]

theorem modifyAt_getElem? {α : Type} (i k : Nat) (f : Vertex α → Vertex α)
    (l : List (Vertex α)) :
    (modifyAt i f l)[k]? = if k = i then (l[k]?).map f else l[k]? := by
  induction l generalizing i k with
  | nil => simp [modifyAt]
  | cons x xs ih =>
    cases i with
    | zero =>
      cases k with
      | zero => simp [modifyAt]
      | succ k => simp [modifyAt]
    | succ i =>
      cases k with
      | zero => simp [modifyAt]
      | succ k => simpa [modifyAt, Nat.succ_inj] using ih i k

theorem e_add_free {α : Type} (g : Graph α) (i1 i2 w : Nat) :
    g_get_free (e_add g i1 i2 w) = g_get_free g := by
  simp [g_get_free, e_add, modifyAt_length]

theorem e_add_items {α : Type} (g : Graph α) (i1 i2 w k : Nat) :
    itemAt? (e_add g i1 i2 w) k = itemAt? g k := by
  simp only [itemAt?, e_add, modifyAt_getElem?]
  split <;> split <;> cases g.vertices[k]? <;> simp [linkTo]

theorem e_add_fields {α : Type} (g : Graph α) (i1 i2 w : Nat) :
    (e_add g i1 i2 w).max_weight = g.max_weight ∧ (e_add g i1 i2 w).size = g.size := by
  simp [e_add]

theorem e_add_adjAt {α : Type} (g : Graph α) (i1 i2 w k : Nat)
    (hne : i1 ≠ i2) (h1 : i1 < g_get_free g) (h2 : i2 < g_get_free g) :
    adjAt (e_add g i1 i2 w) k =
      if k = i1 then { weight := w, index := i2 } :: adjAt g k
      else if k = i2 then { weight := w, index := i1 } :: adjAt g k
      else adjAt g k := by
  have hlen1 : i1 < g.vertices.length := h1
  have hlen2 : i2 < g.vertices.length := h2
  have hv1 : g.vertices[i1]? = some g.vertices[i1] := List.getElem?_eq_getElem hlen1
  have hv2 : g.vertices[i2]? = some g.vertices[i2] := List.getElem?_eq_getElem hlen2
  simp only [adjAt, e_add, modifyAt_getElem?]
  by_cases hk1 : k = i1 <;> by_cases hk2 : k = i2
  · exact absurd (hk1.symm.trans hk2) hne
  · subst hk1
    simp [hk2, hv1, linkTo]
  · subst hk2
    simp [hk1, hv2, linkTo]
  · simp [hk1, hk2]

/-- The loop condition of `g_update_links` for the pair `p`, expressed
against a fixed item table: the injected weight does not exceed the
`max_weight` cutoff. -/
def pairCond {α : Type} [Inhabited α] (calc_weight : α → α → Nat → Nat)
    (g : Graph α) (p : Nat × Nat) : Prop :=
  calc_weight (itemAtD g p.1) (itemAtD g p.2) g.max_weight ≤ g.max_weight

instance {α : Type} [Inhabited α] (calc_weight : α → α → Nat → Nat)
    (g : Graph α) (p : Nat × Nat) : Decidable (pairCond calc_weight g p) := by
  unfold pairCond; infer_instance

/-- The weight computed by `g_update_links` for the pair `p`. -/
def pairWeight {α : Type} [Inhabited α] (calc_weight : α → α → Nat → Nat)
    (g : Graph α) (p : Nat × Nat) : Nat :=
  calc_weight (itemAtD g p.1) (itemAtD g p.2) g.max_weight

theorem addPair_free {α : Type} [Inhabited α] (calc_weight : α → α → Nat → Nat)
    (g : Graph α) (p : Nat × Nat) :
    g_get_free (addPair calc_weight g p) = g_get_free g := by
  simp only [addPair]
  split
  · exact e_add_free g p.1 p.2 _
  · rfl

theorem addPair_items {α : Type} [Inhabited α] (calc_weight : α → α → Nat → Nat)
    (g : Graph α) (p : Nat × Nat) (k : Nat) :
    itemAt? (addPair calc_weight g p) k = itemAt? g k := by
  simp only [addPair]
  split
  · exact e_add_items g p.1 p.2 _ k
  · rfl

theorem addPair_max_weight {α : Type} [Inhabited α] (calc_weight : α → α → Nat → Nat)
    (g : Graph α) (p : Nat × Nat) :
    (addPair calc_weight g p).max_weight = g.max_weight := by
  simp only [addPair]
  split
  · exact (e_add_fields g p.1 p.2 _).1
  · rfl

theorem itemAtD_eq_of_itemAt? {α : Type} [Inhabited α] {g g' : Graph α}
    (h : ∀ k, itemAt? g' k = itemAt? g k) (k : Nat) : itemAtD g' k = itemAtD g k := by
  have hk := h k
  simp only [itemAt?] at hk
  simp only [itemAtD, hk]

theorem addPair_pairCond {α : Type} [Inhabited α] (calc_weight : α → α → Nat → Nat)
    (g : Graph α) (p q : Nat × Nat) :
    pairCond calc_weight (addPair calc_weight g p) q ↔ pairCond calc_weight g q := by
  unfold pairCond
  rw [itemAtD_eq_of_itemAt? (addPair_items calc_weight g p) q.1,
    itemAtD_eq_of_itemAt? (addPair_items calc_weight g p) q.2,
    addPair_max_weight]

theorem addPair_pairWeight {α : Type} [Inhabited α] (calc_weight : α → α → Nat → Nat)
    (g : Graph α) (p q : Nat × Nat) :
    pairWeight calc_weight (addPair calc_weight g p) q = pairWeight calc_weight g q := by
  unfold pairWeight
  rw [itemAtD_eq_of_itemAt? (addPair_items calc_weight g p) q.1,
    itemAtD_eq_of_itemAt? (addPair_items calc_weight g p) q.2,
    addPair_max_weight]

/-- Number of adjacency entries of `es` pointing at vertex `j`. -/
def cntTo (es : List Edge) (j : Nat) : Nat := (es.map Edge.index).count j

/-- Does the pair `p` connect the unordered pair `{k, j}`? -/
def matchKJ (k j : Nat) (p : Nat × Nat) : Bool :=
  (p.1 == k && p.2 == j) || (p.1 == j && p.2 == k)

theorem cntTo_pos_iff (es : List Edge) (j : Nat) :
    0 < cntTo es j ↔ ∃ e ∈ es, e.index = j := by
  rw [cntTo, List.count_pos_iff]
  constructor
  · intro h
    obtain ⟨e, he, hej⟩ := List.mem_map.mp h
    exact ⟨e, he, hej⟩
  · rintro ⟨e, he, hej⟩
    exact List.mem_map.mpr ⟨e, he, hej⟩

theorem addPair_cnt {α : Type} [Inhabited α] (calc_weight : α → α → Nat → Nat)
    (g : Graph α) (p : Nat × Nat) (hp2 : p.2 < p.1) (hp1 : p.1 < g_get_free g)
    (k j : Nat) :
    cntTo (adjAt (addPair calc_weight g p) k) j =
      cntTo (adjAt g k) j +
        (if matchKJ k j p && decide (pairCond calc_weight g p) then 1 else 0) := by
  have hne : p.1 ≠ p.2 := by omega
  simp only [addPair]
  by_cases hcond : calc_weight (itemAtD g p.1) (itemAtD g p.2) g.max_weight ≤ g.max_weight
  · rw [if_pos hcond]
    have hc : decide (pairCond calc_weight g p) = true := by
      simp [pairCond, hcond]
    rw [e_add_adjAt g p.1 p.2 _ k hne hp1 (by omega)]
    by_cases hk1 : k = p.1
    · rw [if_pos hk1]
      have hml : matchKJ k j p = decide (p.2 = j) := by
        by_cases hj2 : p.2 = j <;> by_cases hj1 : p.1 = j <;>
          simp_all [matchKJ]
      simp only [cntTo, List.map_cons, List.count_cons, hc, Bool.and_true, hml]
      by_cases hj2 : p.2 = j <;> simp [hj2]
    · by_cases hk2 : k = p.2
      · rw [if_neg hk1, if_pos hk2]
        have hml : matchKJ k j p = decide (p.1 = j) := by
          by_cases hj2 : p.2 = j <;> by_cases hj1 : p.1 = j <;>
            simp_all [matchKJ]
        simp only [cntTo, List.map_cons, List.count_cons, hc, Bool.and_true, hml]
        by_cases hj1 : p.1 = j <;> simp [hj1]
      · rw [if_neg hk1, if_neg hk2]
        have hml : matchKJ k j p = false := by
          by_cases hj2 : p.2 = j <;> by_cases hj1 : p.1 = j <;>
            simp_all [matchKJ] <;> omega
        simp [hml]
  · rw [if_neg hcond]
    have hc : decide (pairCond calc_weight g p) = false := by
      simp [pairCond, hcond]
    simp [hc]

theorem buildPairs_cnt {α : Type} [Inhabited α] (calc_weight : α → α → Nat → Nat) :
    ∀ (P : List (Nat × Nat)) (g : Graph α),
    (∀ p ∈ P, p.2 < p.1 ∧ p.1 < g_get_free g) → ∀ k j,
    cntTo (adjAt (buildPairs calc_weight g P) k) j =
      cntTo (adjAt g k) j +
        P.countP (fun p => matchKJ k j p && decide (pairCond calc_weight g p)) := by
  intro P
  induction P with
  | nil => intro g _ k j; simp [buildPairs]
  | cons p P ih =>
    intro g hP k j
    have hp := hP p (List.mem_cons_self p P)
    have step : buildPairs calc_weight g (p :: P) =
        buildPairs calc_weight (addPair calc_weight g p) P := rfl
    rw [step]
    have hP' : ∀ q ∈ P, q.2 < q.1 ∧ q.1 < g_get_free (addPair calc_weight g p) := by
      intro q hq
      rw [addPair_free]
      exact hP q (List.mem_cons_of_mem p hq)
    rw [ih (addPair calc_weight g p) hP' k j]
    have hcongr : P.countP (fun q => matchKJ k j q &&
        decide (pairCond calc_weight (addPair calc_weight g p) q)) =
        P.countP (fun q => matchKJ k j q && decide (pairCond calc_weight g q)) := by
      apply List.countP_congr
      intro q _
      simp only [Bool.and_eq_true, decide_eq_true_eq]
      exact and_congr_right (fun _ => addPair_pairCond calc_weight g p q)
    rw [hcongr, addPair_cnt calc_weight g p hp.1 hp.2 k j, List.countP_cons]
    omega

theorem buildPairs_mem {α : Type} [Inhabited α] (calc_weight : α → α → Nat → Nat) :
    ∀ (P : List (Nat × Nat)) (g : Graph α),
    (∀ p ∈ P, p.2 < p.1 ∧ p.1 < g_get_free g) → ∀ k e,
    e ∈ adjAt (buildPairs calc_weight g P) k →
    e ∈ adjAt g k ∨ ∃ p ∈ P, pairCond calc_weight g p ∧
      ((p.1 = k ∧ e = { weight := pairWeight calc_weight g p, index := p.2 }) ∨
       (p.2 = k ∧ e = { weight := pairWeight calc_weight g p, index := p.1 })) := by
  intro P
  induction P with
  | nil => intro g _ k e he; exact Or.inl he
  | cons p P ih =>
    intro g hP k e he
    have hp := hP p (List.mem_cons_self p P)
    have hne : p.1 ≠ p.2 := by omega
    have hP' : ∀ q ∈ P, q.2 < q.1 ∧ q.1 < g_get_free (addPair calc_weight g p) := by
      intro q hq
      rw [addPair_free]
      exact hP q (List.mem_cons_of_mem p hq)
    have step : buildPairs calc_weight g (p :: P) =
        buildPairs calc_weight (addPair calc_weight g p) P := rfl
    rw [step] at he
    rcases ih (addPair calc_weight g p) hP' k e he with h | ⟨q, hq, hqc, hqe⟩
    · -- the edge was already present after the head pair was processed
      by_cases hcond : pairCond calc_weight g p
      · have hcond' : calc_weight (itemAtD g p.1) (itemAtD g p.2) g.max_weight ≤
            g.max_weight := hcond
        have haddp : addPair calc_weight g p =
            e_add g p.1 p.2 (pairWeight calc_weight g p) := by
          simp only [addPair, pairWeight]
          rw [if_pos hcond']
        rw [haddp, e_add_adjAt g p.1 p.2 _ k hne hp.2 (by omega)] at h
        by_cases hk1 : k = p.1
        · rw [if_pos hk1] at h
          rcases List.mem_cons.mp h with rfl | h'
          · exact Or.inr ⟨p, List.mem_cons_self p P, hcond, Or.inl ⟨hk1.symm, rfl⟩⟩
          · exact Or.inl h'
        · by_cases hk2 : k = p.2
          · rw [if_neg hk1, if_pos hk2] at h
            rcases List.mem_cons.mp h with rfl | h'
            · exact Or.inr ⟨p, List.mem_cons_self p P, hcond, Or.inr ⟨hk2.symm, rfl⟩⟩
            · exact Or.inl h'
          · rw [if_neg hk1, if_neg hk2] at h
            exact Or.inl h
      · have hcond' : ¬ calc_weight (itemAtD g p.1) (itemAtD g p.2) g.max_weight ≤
            g.max_weight := hcond
        have haddp : addPair calc_weight g p = g := by
          simp only [addPair, pairWeight]
          rw [if_neg hcond']
        rw [haddp] at h
        exact Or.inl h
    · -- the edge comes from a later pair
      refine Or.inr ⟨q, List.mem_cons_of_mem p hq, ?_, ?_⟩
      · exact (addPair_pairCond calc_weight g p q).mp hqc
      · rw [addPair_pairWeight calc_weight g p q] at hqe
        exact hqe

theorem countP_eq_zero_of {β : Type} {l : List β} {q : β → Bool}
    (h : ∀ p ∈ l, q p = false) : l.countP q = 0 := by
  rw [List.countP_eq_zero]
  intro a ha
  simp [h a ha]

theorem countP_le_one_of_unique {β : Type} : ∀ {l : List β} {q : β → Bool},
    l.Nodup → (∀ p ∈ l, ∀ p' ∈ l, q p = true → q p' = true → p = p') →
    l.countP q ≤ 1 := by
  intro l
  induction l with
  | nil => intro q _ _; simp
  | cons x xs ih =>
    intro q hnd hu
    rw [List.countP_cons]
    rcases List.nodup_cons.mp hnd with ⟨hx, hxs⟩
    by_cases hq : q x = true
    · have hzero : xs.countP q = 0 := by
        apply countP_eq_zero_of
        intro p hp
        by_contra hqp
        have := hu p (List.mem_cons_of_mem x hp) x (List.mem_cons_self x xs)
          (by revert hqp; cases q p <;> simp) hq
        exact hx (this ▸ hp)
      simp [hq, hzero]
    · have : q x = false := by revert hq; cases q x <;> simp
      rw [this]
      simpa using ih hxs (fun p hp p' hp' h1 h2 =>
        hu p (List.mem_cons_of_mem x hp) p' (List.mem_cons_of_mem x hp') h1 h2)

theorem countP_eq_one_of {β : Type} : ∀ {l : List β} {q : β → Bool} {x : β},
    l.Nodup → x ∈ l → q x = true → (∀ p ∈ l, q p = true → p = x) →
    l.countP q = 1 := by
  intro l
  induction l with
  | nil => intro q x _ hx; simp at hx
  | cons y ys ih =>
    intro q x hnd hx hqx hu
    rcases List.nodup_cons.mp hnd with ⟨hy, hys⟩
    rw [List.countP_cons]
    rcases List.mem_cons.mp hx with rfl | hx'
    · have hzero : ys.countP q = 0 := by
        apply countP_eq_zero_of
        intro p hp
        by_contra hqp
        have := hu p (List.mem_cons_of_mem x hp) (by revert hqp; cases q p <;> simp)
        exact hy (this ▸ hp)
      simp [hqx, hzero]
    · have hyx : y ≠ x := fun h => hy (h ▸ hx')
      have hqy : q y = false := by
        by_contra hq
        exact hyx (hu y (List.mem_cons_self y ys)
          (by revert hq; cases q y <;> simp))
      rw [hqy]
      simpa using ih hys hx' hqx
        (fun p hp hq => hu p (List.mem_cons_of_mem y hp) hq)

/-- A freshly constructed graph: every adjacency list is empty (the state
after `g_init` followed by `g_insert`s, before `g_update_links` runs). -/
def FreshGraph {α : Type} (g : Graph α) : Prop := ∀ k, adjAt g k = []

theorem freshGraph_of_adj_nil {α : Type} (g : Graph α)
    (h : ∀ v ∈ g.vertices, v.adj = []) : FreshGraph g := by
  intro k
  unfold adjAt
  cases hv : g.vertices[k]? with
  | none => rfl
  | some v =>
    obtain ⟨hlt, hv2⟩ := List.getElem?_eq_some.mp hv
    exact h v (hv2 ▸ List.getElem_mem hlt)

theorem matchKJ_eval {k j : Nat} {p : Nat × Nat} :
    matchKJ k j p = true ↔ (p.1 = k ∧ p.2 = j) ∨ (p.1 = j ∧ p.2 = k) := by
  simp [matchKJ]

theorem matchKJ_unique {k j : Nat} {p p' : Nat × Nat} (hp : p.2 < p.1)
    (hp' : p'.2 < p'.1) (hq : matchKJ k j p = true) (hq' : matchKJ k j p' = true) :
    p = p' := by
  rw [matchKJ_eval] at hq hq'
  have h1 : p.1 = p'.1 := by omega
  have h2 : p.2 = p'.2 := by omega
  exact Prod.ext h1 h2

theorem matchKJ_maxmin {k j : Nat} (hkj : k ≠ j) :
    matchKJ k j (max k j, min k j) = true := by
  rw [matchKJ_eval]
  rcases Nat.lt_or_ge k j with h | h
  · right
    constructor <;> simp <;> omega
  · left
    constructor <;> simp <;> omega

/-- On a fresh graph, the number of adjacency entries of vertex `k`
pointing at `j` after `g_update_links` equals the number of loop
iterations that connected the unordered pair `{k, j}`. -/
theorem g_update_links_cnt {α : Type} [Inhabited α] (g : Graph α)
    (calc_weight : α → α → Nat → Nat) (hfresh : FreshGraph g) (k j : Nat) :
    cntTo (adjAt (g_update_links g calc_weight) k) j =
      (pairsUpTo (g_get_free g)).countP
        (fun p => matchKJ k j p && decide (pairCond calc_weight g p)) := by
  rw [g_update_links_eq_buildPairs,
    buildPairs_cnt calc_weight (pairsUpTo (g_get_free g)) g
      (fun p hp => pairsUpTo_mem hp) k j, hfresh k]
  simp [cntTo]

/-- On a fresh graph, the edge count between distinct in-range vertices is
`1` when the injected weight passes the cutoff and `0` otherwise. -/
theorem g_update_links_cnt_eval {α : Type} [Inhabited α] (g : Graph α)
    (calc_weight : α → α → Nat → Nat) (hfresh : FreshGraph g) (k j : Nat)
    (hkj : k ≠ j) (hk : k < g_get_free g) (hj : j < g_get_free g) :
    cntTo (adjAt (g_update_links g calc_weight) k) j =
      if pairCond calc_weight g (max k j, min k j) then 1 else 0 := by
  rw [g_update_links_cnt g calc_weight hfresh k j]
  by_cases hcond : pairCond calc_weight g (max k j, min k j)
  · rw [if_pos hcond]
    apply @countP_eq_one_of _ _ _ (max k j, min k j) (pairsUpTo_nodup _)
    · exact pairsUpTo_mem_of (by omega) (by omega)
    · rw [Bool.and_eq_true, matchKJ_maxmin hkj]
      exact ⟨rfl, by simpa using hcond⟩
    · intro p hp hqp
      rw [Bool.and_eq_true] at hqp
      exact matchKJ_unique (pairsUpTo_mem hp).1 (by simp; omega) hqp.1
        (matchKJ_maxmin hkj)
  · rw [if_neg hcond]
    apply countP_eq_zero_of
    intro p hp
    by_cases hm : matchKJ k j p = true
    · have hpe : p = (max k j, min k j) :=
        matchKJ_unique (pairsUpTo_mem hp).1 (by simp; omega) hm (matchKJ_maxmin hkj)
      rw [hpe] at *
      simp [hcond]
    · have hm' : matchKJ k j p = false := by
        revert hm
        cases matchKJ k j p <;> simp
      simp [hm']

/-- C1 counterexample data: two words with `max_weight = 3` and an injected
weight function that always returns `2`. -/
def c1Graph : Graph Nat :=
  { vertices := [{ item := 0, adj := [] }, { item := 1, adj := [] }],
    size := 2, max_weight := 3 }

def c1Calc : Nat → Nat → Nat → Nat := fun _ _ _ => 2

/-- C1 (counterexample): on a two-word graph with `max_distance = 3` and a
distance function returning `2`, `g_update_links` inserts the edge with
weight `2` — the value returned by the function itself — and not the
square `4` that the claim says the weight should equal. -/
theorem c1_weight_not_squared :
    adjAt (g_update_links c1Graph c1Calc) 1 = [{ weight := 2, index := 0 }] ∧
    c1Calc (itemAtD c1Graph 1) (itemAtD c1Graph 0) c1Graph.max_weight = 2 ∧
    c1Calc (itemAtD c1Graph 1) (itemAtD c1Graph 0) c1Graph.max_weight ≤
      c1Graph.max_weight ∧
    (2 : Nat) ≠ 2 * 2 := by
  refine ⟨?_, rfl, by decide, by decide⟩
  rfl

/-- C1 (amended): after `g_update_links` on a fresh graph, for every pair
of distinct in-range vertices `i, j`, an adjacency entry of `i` pointing
at `j` exists iff the injected weight function (applied to the
higher-indexed item first, as the loop does) returns at most
`max_weight`; and every such entry's weight equals the returned value
itself (not its square). -/
theorem c1_edge_characterization {α : Type} [Inhabited α] (g : Graph α)
    (calc_weight : α → α → Nat → Nat) (hfresh : FreshGraph g) (i j : Nat)
    (hij : i ≠ j) (hi : i < g_get_free g) (hj : j < g_get_free g) :
    ((∃ e ∈ adjAt (g_update_links g calc_weight) i, e.index = j) ↔
      pairCond calc_weight g (max i j, min i j)) ∧
    (∀ e ∈ adjAt (g_update_links g calc_weight) i, e.index = j →
      e.weight = pairWeight calc_weight g (max i j, min i j)) := by
  constructor
  · rw [← cntTo_pos_iff, g_update_links_cnt_eval g calc_weight hfresh i j hij hi hj]
    by_cases hcond : pairCond calc_weight g (max i j, min i j) <;> simp [hcond]
  · intro e he hej
    rw [g_update_links_eq_buildPairs] at he
    rcases buildPairs_mem calc_weight (pairsUpTo (g_get_free g)) g
      (fun p hp => pairsUpTo_mem hp) i e he with h | ⟨p, hp, _, hcase⟩
    · rw [hfresh i] at h
      simp at h
    · have hpm := pairsUpTo_mem hp
      rcases hcase with ⟨hp1, rfl⟩ | ⟨hp2, rfl⟩
      · -- entry created while processing pair (i, p.2) with p.2 = j
        simp only at hej
        have : p = (max i j, min i j) := by
          apply Prod.ext <;> simp only <;> omega
        rw [← this]
      · -- entry created while processing pair (p.1, i) with p.1 = j
        simp only at hej
        have : p = (max i j, min i j) := by
          apply Prod.ext <;> simp only <;> omega
        rw [← this]

theorem c1_fresh : FreshGraph c1Graph := by
  apply freshGraph_of_adj_nil
  decide

/-- C1 witness: the amended characterization applied to the concrete
two-word graph: the entry `0 → 1` exists, so the weight function passed
the cutoff on that pair. -/
theorem c1_edge_characterization_witness :
    pairCond c1Calc c1Graph (max 0 1, min 0 1) :=
  (c1_edge_characterization c1Graph c1Calc c1_fresh 0 1 (by decide) (by decide)
    (by decide)).1.mp ⟨{ weight := 2, index := 1 }, by decide, rfl⟩

/-- C10: after `g_update_links` on a fresh graph the graph is simple: no
adjacency entry of a vertex points back at that vertex, and no vertex's
adjacency list holds two entries pointing at the same neighbour. -/
theorem c10_graph_simple {α : Type} [Inhabited α] (g : Graph α)
    (calc_weight : α → α → Nat → Nat) (hfresh : FreshGraph g) (k : Nat) :
    (∀ e ∈ adjAt (g_update_links g calc_weight) k, e.index ≠ k) ∧
    (∀ j, cntTo (adjAt (g_update_links g calc_weight) k) j ≤ 1) := by
  constructor
  · intro e he
    rw [g_update_links_eq_buildPairs] at he
    rcases buildPairs_mem calc_weight (pairsUpTo (g_get_free g)) g
      (fun p hp => pairsUpTo_mem hp) k e he with h | ⟨p, hp, _, hcase⟩
    · rw [hfresh k] at h
      simp at h
    · have hpm := pairsUpTo_mem hp
      rcases hcase with ⟨hp1, rfl⟩ | ⟨hp2, rfl⟩ <;> simp only <;> omega
  · intro j
    rw [g_update_links_cnt g calc_weight hfresh k j]
    apply countP_le_one_of_unique (pairsUpTo_nodup _)
    intro p hp p' hp' hq hq'
    rw [Bool.and_eq_true] at hq hq'
    exact matchKJ_unique (pairsUpTo_mem hp).1 (pairsUpTo_mem hp').1 hq.1 hq'.1

/-- C10 witness: one concrete instance of the per-neighbour bound on the
built two-word graph. -/
theorem c10_graph_simple_witness :
    cntTo (adjAt (g_update_links c1Graph c1Calc) 1) 0 ≤ 1 :=
  (c10_graph_simple c1Graph c1Calc c1_fresh 1).2 0

/-! ### The shortest-path engine (`src/dijkstra.c`)

`shortest_path(g, src, st, max_perm)` fills the caller's predecessor
array `st` and the static distance array `wt`, using a priority queue of
vertex indices ordered by the comparator `cmp`, which consults the shared
`wt` array.  The queue (`heap.c`) is not in the sources; it is modelled
from the spec (§4.2): a container of the not-yet-finalized indices whose
removal operation returns the index with the smallest comparator value. -/

/-- Comparator `cmp(s1, s2)` from `dijkstra.c`: compares two queue entries by their
current tentative distances in the shared array `wt`. -/
def cmp (wt : List (Option Nat)) (a b : Nat) : Bool :=
  olt (wt.getD a none) (wt.getD b none)

/-- Modelled from the spec: the queue removal (`h_delmax` called with the
less-than comparator, which §4.2 documents as `extract_min`): removes and
returns an index with the smallest comparator value from the pending
list, together with the remaining entries; `none` when the queue is
empty. -/
def extractMin (lt : Nat → Nat → Bool) : List Nat → Option (Nat × List Nat)
  | [] => none
  | x :: xs =>
    match extractMin lt xs with
    | none => some (x, xs)
    | some (m, rest) => if lt m x then some (m, x :: rest) else some (x, xs)

/-- The per-run state: the shared distance array `wt` and the caller's
predecessor array `st`. -/
def DijkstraState : Type := List (Option Nat) × List Int

/-- One relaxation step of the inner loop of `shortest_path`: for the
edge `e` out of `v`, if `POT_DIST = wt[v] + e.weight` improves on
`wt[e.index]`, store it and record `st[e.index] = v`. -/
def relaxEdge (v : Nat) (s : DijkstraState) (e : Edge) : DijkstraState :=
  let cand := oadd (s.1.getD v none) e.weight
  if olt cand (s.1.getD e.index none) then
    (s.1.set e.index cand, s.2.set e.index (Int.ofNat v))
  else s

/-- The inner `for` loop of `shortest_path`: relax every adjacency entry
of the extracted vertex `v`, in list order. -/
def relaxAll {α : Type} (g : Graph α) (v : Nat) (s : DijkstraState) : DijkstraState :=
  (adjAt g v).foldl (relaxEdge v) s

/-- The `while (!h_empty(heap))` loop of `shortest_path`.  Each iteration
removes one queue entry, so the queue length is a fuel bound; the code's
loop terminates for the same reason. -/
def loopFuel {α : Type} (g : Graph α) : Nat → List Nat → DijkstraState → DijkstraState
  | 0, _, s => s
  | fuel + 1, heap, s =>
    match extractMin (cmp s.1) heap with
    | none => s
    | some (m, rest) =>
      if s.1.getD m none = none then loopFuel g fuel rest s
      else loopFuel g fuel rest (relaxAll g m s)

/-- Function `shortest_path(g, src, st, max_perm)`: initializes `st[v] = -1` and
`wt[v] = MAX_WT` for every vertex, enqueues all vertex indices, sets
`wt[src] = 0`, then runs the main loop.  Returns the final
`(wt, st)` pair.  (`max_perm` is accepted and ignored by the C code.) -/
def shortest_path {α : Type} (g : Graph α) (src : Nat) : DijkstraState :=
  let n := g_get_free g
  let wt0 := (List.replicate n (none : Option Nat)).set src (some 0)
  let st0 := List.replicate n (-1 : Int)
  loopFuel g n (List.range n) (wt0, st0)

theorem extractMin_eq_none {lt : Nat → Nat → Bool} {heap : List Nat}
    (h : extractMin lt heap = none) : heap = [] := by
  cases heap with
  | nil => rfl
  | cons x xs =>
    simp only [extractMin] at h
    rcases hm : extractMin lt xs with _ | ⟨m, rest⟩ <;> rw [hm] at h
    · simp at h
    · by_cases hlt : lt m x <;> simp [hlt] at h

theorem extractMin_perm {lt : Nat → Nat → Bool} :
    ∀ {heap : List Nat} {m : Nat} {rest : List Nat},
    extractMin lt heap = some (m, rest) → heap.Perm (m :: rest) := by
  intro heap
  induction heap with
  | nil => intro m rest h; simp [extractMin] at h
  | cons x xs ih =>
    intro m rest h
    simp only [extractMin] at h
    rcases hm : extractMin lt xs with _ | ⟨m', rest'⟩ <;> rw [hm] at h <;>
      dsimp only at h
    · simp only [Option.some.injEq, Prod.mk.injEq] at h
      rcases h with ⟨rfl, rfl⟩
      exact List.Perm.refl _
    · cases hb : lt m' x <;> rw [hb] at h <;>
        simp only [Bool.false_eq_true, if_false, if_true,
          Option.some.injEq, Prod.mk.injEq] at h
      · rcases h with ⟨rfl, rfl⟩
        exact List.Perm.refl _
      · rcases h with ⟨rfl, rfl⟩
        exact ((ih hm).cons x).trans (List.Perm.swap _ x rest')

theorem extractMin_min {lt : Nat → Nat → Bool}
    (hasym : ∀ a b, lt a b = true → lt b a = false)
    (hnegtrans : ∀ a b c, lt a b = false → lt b c = false → lt a c = false) :
    ∀ {heap : List Nat} {m : Nat} {rest : List Nat},
    extractMin lt heap = some (m, rest) → ∀ y ∈ heap, lt y m = false := by
  have hirrefl : ∀ a, lt a a = false := by
    intro a
    by_cases h : lt a a = true
    · exact hasym a a h
    · revert h; cases lt a a <;> simp
  intro heap
  induction heap with
  | nil => intro m rest h; simp [extractMin] at h
  | cons x xs ih =>
    intro m rest h y hy
    simp only [extractMin] at h
    rcases hm : extractMin lt xs with _ | ⟨m', rest'⟩ <;> rw [hm] at h <;>
      dsimp only at h
    · simp only [Option.some.injEq, Prod.mk.injEq] at h
      rcases h with ⟨rfl, rfl⟩
      have hxs : xs = [] := extractMin_eq_none hm
      subst hxs
      rcases List.mem_singleton.mp hy with rfl
      exact hirrefl y
    · cases hb : lt m' x <;> rw [hb] at h <;>
        simp only [Bool.false_eq_true, if_false, if_true,
          Option.some.injEq, Prod.mk.injEq] at h
      · rcases h with ⟨rfl, rfl⟩
        rcases List.mem_cons.mp hy with rfl | hy2
        · exact hirrefl y
        · have h1 : lt y m' = false := ih hm y hy2
          exact hnegtrans _ _ _ h1 hb
      · rcases h with ⟨rfl, rfl⟩
        rcases List.mem_cons.mp hy with rfl | hy2
        · exact hasym _ _ hb
        · exact ih hm y hy2

theorem cmp_asymm (wt : List (Option Nat)) :
    ∀ a b, cmp wt a b = true → cmp wt b a = false := fun _ _ h => olt_asymm h

theorem cmp_negtrans (wt : List (Option Nat)) :
    ∀ a b c, cmp wt a b = false → cmp wt b c = false → cmp wt a c = false :=
  fun _ _ _ h1 h2 => olt_negtrans h1 h2

/-- C2: the queue removal of the main loop returns an index of the
pending list whose current tentative distance in the shared array is
smallest (the list is the removed index plus the remaining entries, and
no pending index compares strictly below it) — min-extraction semantics. -/
theorem c2_extraction_min {wt : List (Option Nat)} {heap : List Nat}
    {m : Nat} {rest : List Nat} (h : extractMin (cmp wt) heap = some (m, rest)) :
    m ∈ heap ∧ heap.Perm (m :: rest) ∧
    ∀ y ∈ heap, ole (wt.getD m none) (wt.getD y none) = true := by
  have hperm := extractMin_perm h
  refine ⟨(hperm.mem_iff).mpr (List.mem_cons_self m rest), hperm, ?_⟩
  intro y hy
  have hmin := extractMin_min (cmp_asymm wt) (cmp_negtrans wt) h y hy
  simp only [cmp] at hmin
  simp only [ole]
  rw [hmin]
  rfl

/-- C2 witness: on the concrete distance table `[5, 2, 7]` the removal
returns index `1`, whose distance is smallest. -/
theorem c2_extraction_min_witness :
    (1 : Nat) ∈ [0, 1, 2] ∧ ([0, 1, 2] : List Nat).Perm (1 :: [0, 2]) ∧
    ∀ y ∈ [0, 1, 2],
      ole ([some 5, some 2, some 7].getD 1 none)
        ([some 5, some 2, some 7].getD y none) = true :=
  @c2_extraction_min [some 5, some 2, some 7] [0, 1, 2] 1 [0, 2] (by decide)

/-! ### Relaxation lemmas

Facts about one pass of the inner loop (`relaxAll`), stated over an
arbitrary edge list so they can be proved by folding. -/

theorem relaxEdge_wt_length (m : Nat) (s : DijkstraState) (e : Edge) :
    (relaxEdge m s e).1.length = s.1.length := by
  simp only [relaxEdge]
  split
  · exact List.length_set s.1 e.index _
  · rfl

theorem foldl_relax_wt_length (m : Nat) :
    ∀ (es : List Edge) (s : DijkstraState),
    ((es.foldl (relaxEdge m) s).1.length = s.1.length) := by
  intro es
  induction es with
  | nil => intro s; rfl
  | cons e es ih =>
    intro s
    rw [List.foldl_cons, ih (relaxEdge m s e), relaxEdge_wt_length]

theorem relaxEdge_getD_m (m : Nat) (s : DijkstraState) (e : Edge) :
    (relaxEdge m s e).1.getD m none = s.1.getD m none := by
  simp only [relaxEdge]
  split
  · rename_i hcond
    by_cases hem : e.index = m
    · rw [hem, olt_oadd_self] at hcond
      simp at hcond
    · exact getD_set_ne _ _ _ _ _ hem
  · rfl

theorem foldl_relax_getD_m (m : Nat) :
    ∀ (es : List Edge) (s : DijkstraState),
    ((es.foldl (relaxEdge m) s).1.getD m none = s.1.getD m none) := by
  intro es
  induction es with
  | nil => intro s; rfl
  | cons e es ih =>
    intro s
    rw [List.foldl_cons, ih (relaxEdge m s e), relaxEdge_getD_m]

theorem relaxEdge_preserve (m : Nat) (s : DijkstraState) (e : Edge) (v : Nat)
    (hv : olt (s.1.getD m none) (s.1.getD v none) = false) :
    (relaxEdge m s e).1.getD v none = s.1.getD v none := by
  simp only [relaxEdge]
  split
  · rename_i hcond
    by_cases hev : e.index = v
    · rw [hev, olt_oadd_mono hv] at hcond
      simp at hcond
    · exact getD_set_ne _ _ _ _ _ hev
  · rfl

theorem foldl_relax_preserve (m : Nat) :
    ∀ (es : List Edge) (s : DijkstraState) (v : Nat),
    olt (s.1.getD m none) (s.1.getD v none) = false →
    (es.foldl (relaxEdge m) s).1.getD v none = s.1.getD v none := by
  intro es
  induction es with
  | nil => intro s v _; rfl
  | cons e es ih =>
    intro s v hv
    rw [List.foldl_cons,
      ih (relaxEdge m s e) v (by rw [relaxEdge_getD_m, relaxEdge_preserve m s e v hv]; exact hv),
      relaxEdge_preserve m s e v hv]

theorem relaxEdge_mono (m : Nat) (s : DijkstraState) (e : Edge) (v : Nat) :
    olt (s.1.getD v none) ((relaxEdge m s e).1.getD v none) = false := by
  simp only [relaxEdge]
  split
  · rename_i hcond
    by_cases hev : e.index = v
    · subst hev
      by_cases hlen : e.index < s.1.length
      · rw [getD_set_self _ _ _ _ hlen]
        exact olt_asymm hcond
      · rw [set_of_length_le _ _ _ (by omega)]
        exact olt_irrefl _
    · rw [getD_set_ne _ _ _ _ _ hev]
      exact olt_irrefl _
  · exact olt_irrefl _

theorem foldl_relax_mono (m : Nat) :
    ∀ (es : List Edge) (s : DijkstraState) (v : Nat),
    olt (s.1.getD v none) ((es.foldl (relaxEdge m) s).1.getD v none) = false := by
  intro es
  induction es with
  | nil => intro s v; exact olt_irrefl _
  | cons e es ih =>
    intro s v
    rw [List.foldl_cons]
    exact olt_negtrans (relaxEdge_mono m s e v) (ih (relaxEdge m s e) v)

theorem relaxEdge_lower (m : Nat) (s : DijkstraState) (e : Edge) (v : Nat) :
    (relaxEdge m s e).1.getD v none = s.1.getD v none ∨
    ∃ w, (relaxEdge m s e).1.getD v none = oadd (s.1.getD m none) w := by
  simp only [relaxEdge]
  split
  · by_cases hev : e.index = v
    · subst hev
      by_cases hlen : e.index < s.1.length
      · right
        exact ⟨e.weight, getD_set_self _ _ _ _ hlen⟩
      · left
        rw [set_of_length_le _ _ _ (by omega)]
    · left
      exact getD_set_ne _ _ _ _ _ hev
  · left
    rfl

theorem foldl_relax_lower (m : Nat) :
    ∀ (es : List Edge) (s : DijkstraState) (v : Nat),
    (es.foldl (relaxEdge m) s).1.getD v none = s.1.getD v none ∨
    ∃ w, (es.foldl (relaxEdge m) s).1.getD v none = oadd (s.1.getD m none) w := by
  intro es
  induction es with
  | nil => intro s v; left; rfl
  | cons e es ih =>
    intro s v
    rw [List.foldl_cons]
    rcases ih (relaxEdge m s e) v with h | ⟨w, hw⟩
    · rw [h]
      rcases relaxEdge_lower m s e v with h2 | ⟨w, hw⟩
      · left; exact h2
      · right; exact ⟨w, hw⟩
    · right
      rw [hw, relaxEdge_getD_m]
      exact ⟨w, rfl⟩

theorem foldl_relax_triangle (m : Nat) :
    ∀ (es : List Edge) (s : DijkstraState),
    (∀ e ∈ es, e.index < s.1.length) →
    ∀ e ∈ es, olt (oadd (s.1.getD m none) e.weight)
      ((es.foldl (relaxEdge m) s).1.getD e.index none) = false := by
  intro es
  induction es with
  | nil => intro s _ e he; simp at he
  | cons e0 es ih =>
    intro s hlen e he
    rw [List.foldl_cons]
    rcases List.mem_cons.mp he with rfl | he'
    · -- the head edge: relaxed now, only improved later
      have hstep : olt (oadd (s.1.getD m none) e.weight)
          ((relaxEdge m s e).1.getD e.index none) = false := by
        simp only [relaxEdge]
        split
        · rename_i hcond
          rw [getD_set_self _ _ _ _ (hlen e (List.mem_cons_self _ es))]
          exact olt_irrefl _
        · rename_i hcond
          revert hcond
          cases holt : olt (oadd (s.1.getD m none) e.weight) (s.1.getD e.index none) <;> simp
      exact olt_negtrans hstep (foldl_relax_mono m es (relaxEdge m s e) e.index)
    · have hlen' : ∀ e' ∈ es, e'.index < (relaxEdge m s e0).1.length := by
        intro e' he2
        rw [relaxEdge_wt_length]
        exact hlen e' (List.mem_cons_of_mem e0 he2)
      have := ih (relaxEdge m s e0) hlen' e he'
      rw [relaxEdge_getD_m] at this
      exact this

theorem relaxEdge_src (m : Nat) (s : DijkstraState) (e : Edge) (src : Nat) (d : Int)
    (h0 : s.1.getD src none = some 0) :
    (relaxEdge m s e).1.getD src none = some 0 ∧
    (relaxEdge m s e).2.getD src d = s.2.getD src d := by
  simp only [relaxEdge]
  split
  · rename_i hcond
    by_cases hev : e.index = src
    · subst hev
      rw [h0] at hcond
      exfalso
      rcases hw : oadd (s.1.getD m none) e.weight with _ | c <;> rw [hw] at hcond <;>
        simp [olt] at hcond
    · exact ⟨by rw [getD_set_ne _ _ _ _ _ hev]; exact h0, getD_set_ne _ _ _ _ _ hev⟩
  · exact ⟨h0, rfl⟩

theorem foldl_relax_src (m : Nat) :
    ∀ (es : List Edge) (s : DijkstraState) (src : Nat) (d : Int),
    s.1.getD src none = some 0 →
    (es.foldl (relaxEdge m) s).1.getD src none = some 0 ∧
    (es.foldl (relaxEdge m) s).2.getD src d = s.2.getD src d := by
  intro es
  induction es with
  | nil => intro s src d h0; exact ⟨h0, rfl⟩
  | cons e es ih =>
    intro s src d h0
    rw [List.foldl_cons]
    have hstep := relaxEdge_src m s e src d h0
    have := ih (relaxEdge m s e) src d hstep.1
    exact ⟨this.1, by rw [this.2, hstep.2]⟩

/-! ### The main loop invariant

Label-setting invariant of the `while` loop: finalized vertices have
distances no larger than any pending one, and every edge out of a
finalized vertex is fully relaxed. -/

theorem loop_triangle {α : Type} (g : Graph α)
    (hWF : ∀ k, ∀ e ∈ adjAt g k, e.index < g_get_free g) :
    ∀ (fuel : Nat) (heap : List Nat) (s : DijkstraState),
    heap.length ≤ fuel →
    s.1.length = g_get_free g →
    (∀ x, x < g_get_free g → x ∉ heap → ∀ y ∈ heap,
      olt (s.1.getD y none) (s.1.getD x none) = false) →
    (∀ x, x < g_get_free g → x ∉ heap → ∀ e ∈ adjAt g x,
      olt (oadd (s.1.getD x none) e.weight) (s.1.getD e.index none) = false) →
    ∀ u, u < g_get_free g → ∀ e ∈ adjAt g u,
      olt (oadd ((loopFuel g fuel heap s).1.getD u none) e.weight)
        ((loopFuel g fuel heap s).1.getD e.index none) = false := by
  intro fuel
  induction fuel with
  | zero =>
    intro heap s hfuel hlen hA hB u hu e he
    have hheap : heap = [] := List.eq_nil_of_length_eq_zero (by omega)
    subst hheap
    exact hB u hu (by simp) e he
  | succ fuel ih =>
    intro heap s hfuel hlen hA hB u hu e he
    rcases hext : extractMin (cmp s.1) heap with _ | ⟨m, rest⟩
    · have hheap : heap = [] := extractMin_eq_none hext
      subst hheap
      simp only [loopFuel, hext]
      exact hB u hu (by simp) e he
    · have hperm := extractMin_perm hext
      have hmemiff : ∀ a, a ∈ heap ↔ a = m ∨ a ∈ rest := by
        intro a
        rw [hperm.mem_iff, List.mem_cons]
      have hmin : ∀ y ∈ heap, olt (s.1.getD y none) (s.1.getD m none) = false :=
        extractMin_min (cmp_asymm s.1) (cmp_negtrans s.1) hext
      have hm_in : m ∈ heap := (hmemiff m).mpr (Or.inl rfl)
      have hrestlen : rest.length ≤ fuel := by
        have := hperm.length_eq
        simp only [List.length_cons] at this
        omega
      have hrest_sub : ∀ y ∈ rest, y ∈ heap := fun y hy => (hmemiff y).mpr (Or.inr hy)
      simp only [loopFuel, hext]
      by_cases hwt : s.1.getD m none = none
      · -- extracted vertex is unreached: no relaxation
        rw [if_pos hwt]
        apply ih rest s hrestlen hlen
        · intro x hx hxr y hy
          by_cases hxh : x ∈ heap
          · have hxm : x = m := ((hmemiff x).mp hxh).resolve_right hxr
            subst hxm
            exact hmin y (hrest_sub y hy)
          · exact hA x hx hxh y (hrest_sub y hy)
        · intro x hx hxr e' he'
          by_cases hxh : x ∈ heap
          · have hxm : x = m := ((hmemiff x).mp hxh).resolve_right hxr
            subst hxm
            rw [hwt]
            rfl
          · exact hB x hx hxh e' he'
        · exact hu
        · exact he
      · -- extracted vertex is reached: relax all its edges
        rw [if_neg hwt]
        have hm' : (relaxAll g m s).1.getD m none = s.1.getD m none :=
          foldl_relax_getD_m m (adjAt g m) s
        have hpres : ∀ x, x < g_get_free g → x ∉ rest →
            (relaxAll g m s).1.getD x none = s.1.getD x none ∧
            olt (s.1.getD m none) (s.1.getD x none) = false := by
          intro x hx hxr
          have hxm : olt (s.1.getD m none) (s.1.getD x none) = false := by
            by_cases hxh : x ∈ heap
            · have : x = m := ((hmemiff x).mp hxh).resolve_right hxr
              subst this
              exact olt_irrefl _
            · exact hA x hx hxh m hm_in
          exact ⟨foldl_relax_preserve m (adjAt g m) s x hxm, hxm⟩
        apply ih rest (relaxAll g m s) hrestlen
          (by rw [relaxAll, foldl_relax_wt_length]; exact hlen)
        · intro x hx hxr y hy
          obtain ⟨hx', hxm⟩ := hpres x hx hxr
          rw [hx']
          rcases foldl_relax_lower m (adjAt g m) s y with hy' | ⟨w, hw⟩
          · rw [relaxAll, hy']
            by_cases hxh : x ∈ heap
            · have : x = m := ((hmemiff x).mp hxh).resolve_right hxr
              subst this
              exact hmin y (hrest_sub y hy)
            · exact hA x hx hxh y (hrest_sub y hy)
          · rw [relaxAll, hw]
            exact olt_oadd_mono hxm
        · intro x hx hxr e' he'
          by_cases hxh : x ∈ heap
          · have hxm2 : x = m := ((hmemiff x).mp hxh).resolve_right hxr
            rw [hxm2] at he' ⊢
            rw [relaxAll, foldl_relax_getD_m]
            apply foldl_relax_triangle m (adjAt g m) s
            · intro e2 he2
              rw [hlen]
              exact hWF m e2 he2
            · exact he'
          · obtain ⟨hx', _⟩ := hpres x hx hxr
            rw [hx']
            exact olt_negtrans (hB x hx hxh e' he')
              (foldl_relax_mono m (adjAt g m) s e'.index)
        · exact hu
        · exact he

/-- The source's entries are never touched by the loop: its distance
stays `0` and its predecessor stays `-1`. -/
theorem loop_src {α : Type} (g : Graph α) (src : Nat) :
    ∀ (fuel : Nat) (heap : List Nat) (s : DijkstraState),
    s.1.getD src none = some 0 → s.2.getD src 0 = -1 →
    (loopFuel g fuel heap s).1.getD src none = some 0 ∧
    (loopFuel g fuel heap s).2.getD src 0 = -1 := by
  intro fuel
  induction fuel with
  | zero => intro heap s h0 h1; exact ⟨h0, h1⟩
  | succ fuel ih =>
    intro heap s h0 h1
    rcases hext : extractMin (cmp s.1) heap with _ | ⟨m, rest⟩
    · simp only [loopFuel, hext]
      exact ⟨h0, h1⟩
    · simp only [loopFuel, hext]
      by_cases hwt : s.1.getD m none = none
      · rw [if_pos hwt]
        exact ih rest s h0 h1
      · rw [if_neg hwt]
        have hrel := foldl_relax_src m (adjAt g m) s src 0 h0
        exact ih rest (relaxAll g m s) hrel.1 (by rw [relaxAll, hrel.2]; exact h1)

/-- C6: after a `shortest_path` run from any source, for every edge
`(u, v)` of weight `w` where `u` ended with a finite distance `d`, the
final distance of `v` is at most `d + w`. -/
theorem c6_triangle {α : Type} (g : Graph α)
    (hWF : ∀ k, ∀ e ∈ adjAt g k, e.index < g_get_free g)
    (src u : Nat) (hu : u < g_get_free g) (e : Edge) (he : e ∈ adjAt g u)
    (d : Nat) (hd : (shortest_path g src).1.getD u none = some d) :
    ole ((shortest_path g src).1.getD e.index none) (some (d + e.weight)) = true := by
  have hsp : shortest_path g src =
      loopFuel g (g_get_free g) (List.range (g_get_free g))
        ((List.replicate (g_get_free g) (none : Option Nat)).set src (some 0),
         List.replicate (g_get_free g) (-1 : Int)) := rfl
  have hmain := loop_triangle g hWF (g_get_free g) (List.range (g_get_free g))
    ((List.replicate (g_get_free g) (none : Option Nat)).set src (some 0),
     List.replicate (g_get_free g) (-1 : Int))
    (by rw [List.length_range])
    (by rw [List.length_set, List.length_replicate])
    (fun x hx hnot => absurd (List.mem_range.mpr hx) hnot)
    (fun x hx hnot => absurd (List.mem_range.mpr hx) hnot)
    u hu e he
  rw [← hsp, hd] at hmain
  have hoadd : oadd (some d) e.weight = some (d + e.weight) := rfl
  rw [hoadd] at hmain
  simp only [ole]
  rw [hmain]
  rfl

/-- A two-word connected graph for concrete runs of the engine:
items `10` and `20`, one undirected edge of weight `1`. -/
def demoGraph : Graph Nat :=
  { vertices := [{ item := 10, adj := [{ weight := 1, index := 1 }] },
                 { item := 20, adj := [{ weight := 1, index := 0 }] }],
    size := 2, max_weight := 1 }

theorem demoGraph_wf : ∀ k, ∀ e ∈ adjAt demoGraph k, e.index < g_get_free demoGraph := by
  intro k e he
  match k with
  | 0 =>
    simp [adjAt, demoGraph] at he
    rw [he]
    decide
  | 1 =>
    simp [adjAt, demoGraph] at he
    rw [he]
    decide
  | (n + 2) => simp [adjAt, demoGraph] at he

/-- C6 witness: on the concrete two-word graph, the run from vertex `0`
gives `distance[0] = 0`, and across the edge `0 → 1` of weight `1` the
triangle bound `distance[1] ≤ 0 + 1` holds. -/
theorem c6_triangle_witness :
    ole ((shortest_path demoGraph 0).1.getD 1 none) (some (0 + 1)) = true :=
  c6_triangle demoGraph demoGraph_wf 0 0 (by decide)
    { weight := 1, index := 1 } (by decide) 0 (by decide)

/-- C7: for every valid source vertex, the run leaves the source with
distance exactly `0` and predecessor `-1` ("none"). -/
theorem c7_source_entries {α : Type} (g : Graph α) (src : Nat)
    (hsrc : src < g_get_free g) :
    (shortest_path g src).1.getD src none = some 0 ∧
    (shortest_path g src).2.getD src 0 = -1 := by
  have hsp : shortest_path g src =
      loopFuel g (g_get_free g) (List.range (g_get_free g))
        ((List.replicate (g_get_free g) (none : Option Nat)).set src (some 0),
         List.replicate (g_get_free g) (-1 : Int)) := rfl
  rw [hsp]
  apply loop_src
  · exact getD_set_self _ _ _ _ (by rw [List.length_replicate]; exact hsrc)
  · show (List.replicate (g_get_free g) (-1 : Int)).getD src 0 = -1
    rw [getD_replicate, if_pos hsrc]

/-- C7 witness: the run from vertex `0` of the concrete two-word graph
leaves `distance[0] = 0` and `predecessor[0] = -1`. -/
theorem c7_source_entries_witness :
    (shortest_path demoGraph 0).1.getD 0 none = some 0 ∧
    (shortest_path demoGraph 0).2.getD 0 0 = -1 :=
  c7_source_entries demoGraph 0 (by decide)

/-! ### The static distance buffer (`static int *wt` in `dijkstra.c`)

`shortest_path` reallocates a file-scoped static buffer on every call,
fills it, and returns it.  The memory model has one cell (the buffer) and
one possible pointer value (its address). -/

structure DijkstraMem where
  wtBuf : List (Option Nat)
deriving DecidableEq

/-- The only pointer value `shortest_path` ever returns: the address of
the static `wt` buffer. -/
inductive WtPtr where
  | staticWt : WtPtr
deriving DecidableEq

/-- Function `shortest_path` as the caller sees it: the static buffer is
reallocated and overwritten with this run's distances, the caller's
predecessor array is filled and the buffer's address is returned. -/
def shortest_path_c {α : Type} (g : Graph α) (src : Nat) (mem : DijkstraMem) :
    DijkstraMem × WtPtr × List Int :=
  let r := shortest_path g src
  ({ wtBuf := r.1 }, WtPtr.staticWt, r.2)

/-- Dereferencing a returned distance-array pointer in a later memory
state: every such pointer aliases the static buffer. -/
def readWt (mem : DijkstraMem) : WtPtr → List (Option Nat)
  | WtPtr.staticWt => mem.wtBuf

/-- C3 (counterexample): run `shortest_path` on the same graph from
vertex `0` and then from vertex `1`.  The distance array returned by the
first call, read through its pointer after the second call, now holds
the second run's distances — the second call modified and invalidated
the first call's array, contradicting the claimed independence. -/
theorem c3_second_call_invalidates :
    readWt (shortest_path_c demoGraph 0 { wtBuf := [] }).1
        (shortest_path_c demoGraph 0 { wtBuf := [] }).2.1 = [some 0, some 1] ∧
    readWt (shortest_path_c demoGraph 1
          (shortest_path_c demoGraph 0 { wtBuf := [] }).1).1
        (shortest_path_c demoGraph 0 { wtBuf := [] }).2.1 = [some 1, some 0] ∧
    [some 1, some 0] ≠ ([some 0, some 1] : List (Option Nat)) := by
  refine ⟨rfl, rfl, by decide⟩

/-- C3 (amended): successive calls share the single static buffer: after
a second call, the first call's pointer reads the second run's
distances; the predecessor data of each call lives in caller-provided
storage and is returned by value; and the runs' outputs depend only on
the graph and source, not on prior buffer contents. -/
theorem c3_shared_static_buffer {α : Type} (g : Graph α) (src1 src2 : Nat)
    (mem : DijkstraMem) :
    readWt (shortest_path_c g src2 (shortest_path_c g src1 mem).1).1
        (shortest_path_c g src1 mem).2.1 = (shortest_path g src2).1 ∧
    (shortest_path_c g src1 mem).2.2 = (shortest_path g src1).2 ∧
    (shortest_path_c g src1 mem).1 = (shortest_path_c g src1 { wtBuf := [] }).1 := by
  exact ⟨rfl, rfl, rfl⟩

/-! ### The query driver (`solve_pal` and `walk_tree` in `file.c`) -/

/-- The inline source-word scan of `solve_pal`:
`for (i = 0; i < g_get_free(g) && strcmp(word1, ...); i++);` — the index
of the first matching item, or the vertex count when nothing matches. -/
def scanAux {α : Type} [DecidableEq α] : List α → α → Nat
  | [], _ => 0
  | x :: xs, w => if x = w then 0 else scanAux xs w + 1

def scanIndex {α : Type} [DecidableEq α] (g : Graph α) (w : α) : Nat :=
  scanAux (g.vertices.map Vertex.item) w

/-- Modelled from the spec: `v_find(g, word2, w_cmp)` — its defining
translation unit is not in the sources.  Per §4.1 `find_vertex`: linear
scan comparing payload equality, first match wins, explicit `NotFound`
(here `none`) when no payload matches. -/
def v_find {α : Type} [DecidableEq α] (g : Graph α) (w : α) : Option Nat :=
  if scanIndex g w < g_get_free g then some (scanIndex g w) else none

/-- Function `walk_tree(g, st, wt, dst)`: recursively prints the items on the
predecessor chain of `dst` (nothing when `st[dst]` is `-1`); the
vertex-count fuel bounds the recursion, which in C runs on the acyclic
predecessor tree. -/
def walk_tree {α : Type} [Inhabited α] (g : Graph α) (st : List Int) :
    Nat → Int → List α
  | 0, _ => []
  | fuel + 1, dst =>
    if st.getD dst.toNat 0 = -1 then []
    else walk_tree g st fuel (st.getD dst.toNat 0) ++ [itemAtD g dst.toNat]

/-- What one iteration of `solve_pal`'s loop prints for a query:
the unreachable report `word1 -1 / word2`, or the path report
`word1, wt[v]`, the intermediate items, `word2`. -/
inductive QueryResult (α : Type) where
  | unreachable : α → α → QueryResult α
  | path : α → Option Nat → List α → α → QueryResult α
  | lookup_failed : QueryResult α
deriving DecidableEq

/-- One iteration of the query loop of `solve_pal`: scan for the source
word, run `shortest_path` from the scan result, locate the destination
with `v_find`, and report according to the `st[v] == -1` test.  (When
`v_find` fails, the C code would index `st` with the failure value; the
model makes that case explicit.) -/
def solveQuery {α : Type} [DecidableEq α] [Inhabited α] (g : Graph α) (w1 w2 : α) :
    QueryResult α :=
  let i := scanIndex g w1
  let r := shortest_path g i
  match v_find g w2 with
  | none => QueryResult.lookup_failed
  | some v =>
    if r.2.getD v 0 = -1 then QueryResult.unreachable w1 w2
    else QueryResult.path (itemAtD g i) (r.1.getD v none)
      (walk_tree g r.2 (g_get_free g) (r.2.getD v 0)) (itemAtD g v)

/-- C4: when the destination is found at `v`, `v` is not the source
index, and the run left `predecessor[v] = -1`, the query is reported as
unreachable — not as a path and not as any distance value. -/
theorem c4_unreachable_report {α : Type} [DecidableEq α] [Inhabited α]
    (g : Graph α) (w1 w2 : α) (v : Nat) (hfind : v_find g w2 = some v)
    (hnsrc : v ≠ scanIndex g w1)
    (hst : (shortest_path g (scanIndex g w1)).2.getD v 0 = -1) :
    solveQuery g w1 w2 = QueryResult.unreachable w1 w2 := by
  simp only [solveQuery]
  rw [hfind]
  dsimp only
  rw [if_pos hst]

/-- A two-word graph with no edges (the `max_distance = 0` situation). -/
def noEdgeGraph : Graph Nat :=
  { vertices := [{ item := 10, adj := [] }, { item := 20, adj := [] }],
    size := 2, max_weight := 0 }

/-- C4 witness: on the edgeless two-word graph the query `10 → 20` is
reported unreachable. -/
theorem c4_unreachable_report_witness :
    solveQuery noEdgeGraph 10 20 = QueryResult.unreachable 10 20 :=
  c4_unreachable_report noEdgeGraph 10 20 1 (by decide) (by decide) (by decide)

/-- A one-word graph, for the source-equals-destination query. -/
def oneWordGraph : Graph Nat :=
  { vertices := [{ item := 7, adj := [] }], size := 1, max_weight := 0 }

/-- C5 (code bug, evaluation): for a query whose source word equals its
destination word, the source vertex's predecessor entry is `-1`, so
`solve_pal`'s `st[v] == -1` test fires and the code emits the
unreachable report — even though the run's distance to that vertex is
`0` and the claim (and spec §4.4) require the trivial single-vertex path
with distance `0`. -/
theorem c5_source_equals_dest_misreported :
    solveQuery oneWordGraph 7 7 = QueryResult.unreachable 7 7 ∧
    (shortest_path oneWordGraph (scanIndex oneWordGraph 7)).1.getD 0 none = some 0 := by
  refine ⟨rfl, by decide⟩

/-! ### `v_get` bounds checking (`graph.c`) -/

/-- The observable outcome of `v_get`: the bounds-check failure (in C, a
message on `stderr` and `exit`), or the array read — where reading a slot
past the inserted vertices, which in C touches uninitialized or
unallocated memory, is `read none`. -/
inductive VGetResult (α : Type) where
  | invalidVertexError : VGetResult α
  | read : Option (Vertex α) → VGetResult α
deriving DecidableEq

/-- Function `v_get(g, index)`: rejects only `index > g->size`, then returns
`g->vertices[index]`. -/
def v_get {α : Type} (g : Graph α) (index : Nat) : VGetResult α :=
  if index > g.size then VGetResult.invalidVertexError
  else VGetResult.read g.vertices[index]?

/-- C8 (code bug, evaluation): the claim says every `index ≥ size` is
rejected with `InvalidVertexError`, but the check is `index > g->size`:
at `index = size` (here `1`, with capacity `1`) the check passes and
`v_get` instead reads one slot past the allocated array. -/
theorem c8_off_by_one :
    1 ≥ oneWordGraph.size ∧
    v_get oneWordGraph 1 ≠ VGetResult.invalidVertexError ∧
    v_get oneWordGraph 1 = VGetResult.read none := by
  refine ⟨by decide, by decide, by decide⟩

/-! ### The word scan (C9) -/

theorem scanAux_spec {α : Type} [DecidableEq α] :
    ∀ (l : List α) (w : α),
    (∀ k, k < scanAux l w → l[k]? ≠ some w) ∧
    (scanAux l w < l.length → l[scanAux l w]? = some w) ∧
    scanAux l w ≤ l.length := by
  intro l
  induction l with
  | nil =>
    intro w
    refine ⟨fun k hk => by simp [scanAux] at hk, fun h => by simp [scanAux] at h, by simp [scanAux]⟩
  | cons x xs ih =>
    intro w
    by_cases hx : x = w
    · refine ⟨fun k hk => by simp [scanAux, hx] at hk, ?_, by simp [scanAux, hx]⟩
      intro _
      simp [scanAux, hx]
    · obtain ⟨ih1, ih2, ih3⟩ := ih w
      have hs : scanAux (x :: xs) w = scanAux xs w + 1 := by
        simp [scanAux, hx]
      refine ⟨?_, ?_, ?_⟩
      · intro k hk
        rw [hs] at hk
        cases k with
        | zero => simpa using fun h => hx h
        | succ k =>
          simp only [List.getElem?_cons_succ]
          exact ih1 k (by omega)
      · intro hlt
        rw [hs] at hlt ⊢
        simp only [List.getElem?_cons_succ]
        exact ih2 (by simpa using hlt)
      · rw [hs]
        simp only [List.length_cons]
        omega

/-- C9 (counterexample): on the one-word dictionary `{7}`, the word `8`
is absent, yet the in-source scan of `solve_pal` yields the vertex count
`g_get_free g` — an out-of-range vertex index that the code then passes
to `shortest_path` as the source — rather than any `NotFound` result. -/
theorem c9_absent_word_not_notfound :
    (8 : Nat) ∉ oneWordGraph.vertices.map Vertex.item ∧
    scanIndex oneWordGraph 8 = g_get_free oneWordGraph := by
  refine ⟨by decide, rfl⟩

/-- C9 (amended): the scan is a first-match linear scan: every index
before the result mismatches, the result is a match whenever it is in
range, and an absent word yields exactly the vertex count (not a
distinct `NotFound` value). -/
theorem c9_scan_characterization {α : Type} [DecidableEq α] (g : Graph α) (w : α) :
    (∀ k, k < scanIndex g w → itemAt? g k ≠ some w) ∧
    (scanIndex g w < g_get_free g → itemAt? g (scanIndex g w) = some w) ∧
    scanIndex g w ≤ g_get_free g := by
  obtain ⟨h1, h2, h3⟩ := scanAux_spec (g.vertices.map Vertex.item) w
  have hitem : ∀ k, itemAt? g k = (g.vertices.map Vertex.item)[k]? := by
    intro k
    rw [itemAt?, List.getElem?_map]
  have hlen : (g.vertices.map Vertex.item).length = g_get_free g := List.length_map _ _
  refine ⟨?_, ?_, ?_⟩
  · intro k hk
    rw [hitem k]
    exact h1 k hk
  · intro hlt
    rw [hitem]
    exact h2 (by rw [hlen]; exact hlt)
  · rw [← hlen]
    exact h3

/-- C9 witness: on the one-word dictionary the scan finds the word `7`
at its index. -/
theorem c9_scan_characterization_witness :
    itemAt? oneWordGraph (scanIndex oneWordGraph 7) = some 7 :=
  (c9_scan_characterization oneWordGraph 7).2.1 (by decide)

end Wordmorph
